import Mathlib

/-!
Verification of the markdown-translator core (src/translator.js) against its
specification.  Strings are modelled as `List Char`; the asynchronous
text-generation provider is modelled as a pure function from prompt to
`Except` (error message or response text); filesystem reads are a partial map
from path to content and writes are returned as an explicit list.
-/

/-- The set of characters removed by the JavaScript `String.prototype.trim`
(ECMAScript WhiteSpace and LineTerminator code points). -/
def isJsWs (c : Char) : Bool :=
  c = ' ' ∨ c = '\t' ∨ c = '\n' ∨ c = '\r' ∨ c = '\x0b' ∨ c = '\x0c' ∨
  c = '\u00A0' ∨ c = '\u1680' ∨ ('\u2000' ≤ c ∧ c ≤ '\u200A') ∨
  c = '\u2028' ∨ c = '\u2029' ∨ c = '\u202F' ∨ c = '\u205F' ∨
  c = '\u3000' ∨ c = '\uFEFF'

/-- Leading-whitespace removal, first half of JS `trim`. -/
def trimLeftL (s : List Char) : List Char := s.dropWhile isJsWs

/-- Trailing-whitespace removal, second half of JS `trim`. -/
def trimRightL (s : List Char) : List Char := (s.reverse.dropWhile isJsWs).reverse

/-- Model of JS `String.prototype.trim`. -/
def trimL (s : List Char) : List Char := trimRightL (trimLeftL s)

/-- Model of JS `String.prototype.split` with a single-character separator:
`splitOnC sep s` always returns at least one (possibly empty) piece. -/
def splitOnC (sep : Char) : List Char → List (List Char)
  | [] => [[]]
  | c :: rest =>
    if c = sep then [] :: splitOnC sep rest
    else
      match splitOnC sep rest with
      | [] => [[c]]
      | l :: ls => (c :: l) :: ls

/-- Join a list of pieces with a separator list (model of `Array.prototype.join`
and the inverse of `splitOnC`). -/
def joinSep (sep : List Char) : List (List Char) → List Char
  | [] => []
  | [x] => x
  | x :: y :: t => x ++ sep ++ joinSep sep (y :: t)

/-- `content.split('\n')` from `splitIntoChunks`. -/
def splitOnNl (content : List Char) : List (List Char) := splitOnC '\n' content

/-- Join line groups with a single newline. -/
def jnl (ls : List (List Char)) : List Char := joinSep ['\n'] ls

theorem splitOnC_ne_nil (sep : Char) (s : List Char) : splitOnC sep s ≠ [] := by
  induction s with
  | nil => simp [splitOnC]
  | cons c rest ih =>
    by_cases h : c = sep
    · simp [splitOnC, h]
    · simp only [splitOnC, if_neg h]
      cases hs : splitOnC sep rest with
      | nil => simp
      | cons l ls => simp

theorem joinSep_cons (sep : List Char) (a : List Char) (t : List (List Char))
    (ht : t ≠ []) : joinSep sep (a :: t) = a ++ sep ++ joinSep sep t := by
  cases t with
  | nil => exact absurd rfl ht
  | cons y ys => rfl

theorem joinSep_splitOnC (sep : Char) (s : List Char) :
    joinSep [sep] (splitOnC sep s) = s := by
  induction s with
  | nil => simp [splitOnC, joinSep]
  | cons c rest ih =>
    by_cases h : c = sep
    · rw [show splitOnC sep (c :: rest) = [] :: splitOnC sep rest by
        simp [splitOnC, h]]
      rw [joinSep_cons _ _ _ (splitOnC_ne_nil sep rest), ih, h]
      rfl
    · simp only [splitOnC, if_neg h]
      cases hs : splitOnC sep rest with
      | nil => exact absurd hs (splitOnC_ne_nil sep rest)
      | cons l ls =>
        rw [hs] at ih
        cases ls with
        | nil => simpa [joinSep] using congrArg (c :: ·) ih
        | cons y ys =>
          rw [joinSep_cons _ _ _ (by simp), List.cons_append, List.cons_append]
          rw [joinSep_cons _ _ _ (by simp)] at ih
          simp only [List.cons.injEq, true_and]
          simpa using ih

theorem mem_splitOnC_no_sep (sep : Char) (s : List Char) :
    ∀ l ∈ splitOnC sep s, sep ∉ l := by
  induction s with
  | nil => simp [splitOnC]
  | cons c rest ih =>
    by_cases h : c = sep
    · simp only [splitOnC, if_pos h]
      intro l hl
      rcases List.mem_cons.mp hl with h1 | h1
      · simp [h1]
      · exact ih l h1
    · simp only [splitOnC, if_neg h]
      cases hs : splitOnC sep rest with
      | nil => exact absurd hs (splitOnC_ne_nil sep rest)
      | cons a as =>
        intro l hl
        rcases List.mem_cons.mp hl with h1 | h1
        · subst h1
          intro hmem
          rcases List.mem_cons.mp hmem with hc | hc
          · exact h hc.symm
          · exact ih a (hs ▸ List.mem_cons_self a as) hc
        · exact ih l (hs ▸ List.mem_cons_of_mem a h1)

theorem splitOnC_append_sep (sep : Char) (xs ys : List Char) (h : sep ∉ xs) :
    splitOnC sep (xs ++ sep :: ys) = xs :: splitOnC sep ys := by
  induction xs with
  | nil => simp [splitOnC]
  | cons c t ih =>
    have hc : c ≠ sep := fun hc => h (hc ▸ List.mem_cons_self c t)
    have ht : sep ∉ t := fun hm => h (List.mem_cons_of_mem c hm)
    rw [List.cons_append]
    simp only [splitOnC, if_neg hc]
    rw [ih ht]

theorem mem_of_mem_dropWhile {p : Char → Bool} {a : Char} :
    ∀ {l : List Char}, a ∈ l.dropWhile p → a ∈ l := by
  intro l
  induction l with
  | nil => simp [List.dropWhile]
  | cons c t ih =>
    intro h
    by_cases hc : p c
    · rw [List.dropWhile_cons_of_pos hc] at h
      exact List.mem_cons_of_mem c (ih h)
    · rwa [List.dropWhile_cons_of_neg hc] at h

theorem length_dropWhile_le (p : Char → Bool) :
    ∀ l : List Char, (l.dropWhile p).length ≤ l.length := by
  intro l
  induction l with
  | nil => simp [List.dropWhile]
  | cons c t ih =>
    by_cases hc : p c
    · rw [List.dropWhile_cons_of_pos hc]
      exact Nat.le_trans ih (Nat.le_succ _)
    · rw [List.dropWhile_cons_of_neg hc]

theorem head?_dropWhile_false {p : Char → Bool} {c : Char} :
    ∀ {l : List Char}, (l.dropWhile p).head? = some c → p c = false := by
  intro l
  induction l with
  | nil => simp [List.dropWhile]
  | cons a t ih =>
    intro h
    by_cases ha : p a
    · rw [List.dropWhile_cons_of_pos ha] at h
      exact ih h
    · rw [List.dropWhile_cons_of_neg ha] at h
      simp only [List.head?_cons, Option.some.injEq] at h
      subst h
      exact Bool.eq_false_iff.mpr ha

theorem mem_of_mem_trimL {a : Char} {s : List Char} (h : a ∈ trimL s) : a ∈ s := by
  unfold trimL trimRightL trimLeftL at h
  rw [List.mem_reverse] at h
  have h1 := mem_of_mem_dropWhile h
  rw [List.mem_reverse] at h1
  exact mem_of_mem_dropWhile h1

theorem length_trimL_le (s : List Char) : (trimL s).length ≤ s.length := by
  unfold trimL trimRightL trimLeftL
  calc ((s.dropWhile isJsWs).reverse.dropWhile isJsWs).reverse.length
      = ((s.dropWhile isJsWs).reverse.dropWhile isJsWs).length := by
        rw [List.length_reverse]
    _ ≤ (s.dropWhile isJsWs).reverse.length := length_dropWhile_le _ _
    _ = (s.dropWhile isJsWs).length := by rw [List.length_reverse]
    _ ≤ s.length := length_dropWhile_le _ _

theorem trimL_cons_ws {c : Char} (hc : isJsWs c = true) (s : List Char) :
    trimL (c :: s) = trimL s := by
  unfold trimL trimLeftL
  rw [List.dropWhile_cons_of_pos hc]

theorem trimL_nl (s : List Char) : trimL ('\n' :: s) = trimL s :=
  trimL_cons_ws (by decide) s

theorem getLast?_trimL_not_ws {s : List Char} {c : Char}
    (h : (trimL s).getLast? = some c) : isJsWs c = false := by
  unfold trimL trimRightL at h
  rw [List.getLast?_reverse] at h
  exact head?_dropWhile_false h

/-- Default chunk budget from the `MarkdownTranslator` class
(`DEFAULT_CHUNK_SIZE = 800000`). -/
def DEFAULT_CHUNK_SIZE : Nat := 800000

/-- One step of the accumulator update in `splitIntoChunks`:
`currentChunk += (currentChunk ? '\n' : '') + line`. -/
def pushLine (acc line : List Char) : List Char :=
  if acc.isEmpty then line else acc ++ '\n' :: line

/-- The `for (const line of lines)` loop of `splitIntoChunks`, including the
final flush `if (currentChunk.trim()) chunks.push(currentChunk.trim())`. -/
def chunksLoop (maxChunkSize : Nat) : List (List Char) → List Char → List (List Char)
  | [], acc => if (trimL acc).isEmpty then [] else [trimL acc]
  | line :: rest, acc =>
    if acc.length + line.length + 1 > maxChunkSize ∧ acc.length > 0 then
      trimL acc :: chunksLoop maxChunkSize rest line
    else
      chunksLoop maxChunkSize rest (pushLine acc line)

/-- `MarkdownTranslator.splitIntoChunks(content, maxChunkSize)`
(src/translator.js lines 32-52): split on newlines, then greedily accumulate
lines into chunks, flushing a trimmed chunk whenever appending the next line
would exceed the budget and the accumulator is non-empty. -/
def splitIntoChunks (content : List Char) (maxChunkSize : Nat) : List (List Char) :=
  chunksLoop maxChunkSize (splitOnNl content) []

/-- Reference reading of the splitter output used to state claim C1: given
the decomposition of the document into contiguous groups of whole lines
(`segs`, to be rejoined with single newlines), each group contributes its
trimmed text as one chunk, except that a final group that is pure whitespace
contributes nothing. -/
def chunksOfSegs : List (List Char) → List (List Char)
  | [] => []
  | [a] => if (trimL a).isEmpty then [] else [trimL a]
  | a :: b :: t => trimL a :: chunksOfSegs (b :: t)

theorem chunksOfSegs_nl_head (h : List Char) (t : List (List Char)) :
    chunksOfSegs (('\n' :: h) :: t) = chunksOfSegs (h :: t) := by
  cases t with
  | nil => simp [chunksOfSegs, trimL_nl]
  | cons b bs => simp [chunksOfSegs, trimL_nl]

theorem jnl_cons (a : List Char) (t : List (List Char)) (ht : t ≠ []) :
    jnl (a :: t) = a ++ '\n' :: jnl t := by
  unfold jnl
  rw [joinSep_cons _ _ _ ht]
  simp

theorem jnl_glue (a b : List Char) (t : List (List Char)) :
    jnl ((a ++ '\n' :: b) :: t) = jnl (a :: b :: t) := by
  cases t with
  | nil => simp [jnl, joinSep]
  | cons y ys =>
    rw [jnl_cons _ _ (by simp), jnl_cons a (b :: y :: ys) (by simp),
        jnl_cons b (y :: ys) (by simp)]
    simp

theorem jnl_nl_head (h : List Char) (t : List (List Char)) :
    jnl (('\n' :: h) :: t) = '\n' :: jnl (h :: t) := by
  cases t with
  | nil => simp [jnl, joinSep]
  | cons y ys =>
    rw [jnl_cons _ _ (by simp), jnl_cons h (y :: ys) (by simp)]
    simp

/-- Core invariant of the splitting loop: the chunks it produces are exactly
the per-group trims (with a whitespace-only final group dropped) of some
newline-separated decomposition of the text still to be processed. -/
theorem chunksLoop_spec (B : Nat) :
    ∀ (ls : List (List Char)) (acc : List Char),
      ∃ segs, segs ≠ [] ∧ jnl segs = jnl (acc :: ls) ∧
        chunksLoop B ls acc = chunksOfSegs segs := by
  intro ls
  induction ls with
  | nil =>
    intro acc
    exact ⟨[acc], by simp, rfl, rfl⟩
  | cons l rest ih =>
    intro acc
    by_cases hcond : acc.length + l.length + 1 > B ∧ acc.length > 0
    · obtain ⟨segs, hne, hjoin, hchunks⟩ := ih l
      refine ⟨acc :: segs, by simp, ?_, ?_⟩
      · rw [jnl_cons _ _ hne, hjoin, jnl_cons acc (l :: rest) (by simp)]
      · rw [show chunksLoop B (l :: rest) acc =
              trimL acc :: chunksLoop B rest l by
            simp [chunksLoop, hcond]]
        obtain ⟨s, t, rfl⟩ : ∃ s t, segs = s :: t := by
          cases segs with
          | nil => exact absurd rfl hne
          | cons s t => exact ⟨s, t, rfl⟩
        rw [hchunks]
        rfl
    · obtain ⟨segs, hne, hjoin, hchunks⟩ := ih (pushLine acc l)
      have hstep : chunksLoop B (l :: rest) acc =
          chunksLoop B rest (pushLine acc l) := by
        simp [chunksLoop, hcond]
      by_cases hacc : acc.isEmpty
      · have haccnil : acc = [] := List.isEmpty_iff.mp hacc
        subst haccnil
        have hpush : pushLine [] l = l := by simp [pushLine]
        rw [hpush] at hjoin hchunks
        obtain ⟨s, t, rfl⟩ : ∃ s t, segs = s :: t := by
          cases segs with
          | nil => exact absurd rfl hne
          | cons s t => exact ⟨s, t, rfl⟩
        refine ⟨('\n' :: s) :: t, by simp, ?_, ?_⟩
        · rw [jnl_nl_head, hjoin, jnl_cons [] (l :: rest) (by simp)]
          simp
        · rw [hstep, hpush, hchunks, chunksOfSegs_nl_head]
      · have haccne : ¬ acc = [] := fun h => hacc (h ▸ rfl)
        have hpush : pushLine acc l = acc ++ '\n' :: l := by
          simp [pushLine, hacc]
        rw [hpush] at hjoin hchunks
        refine ⟨segs, hne, ?_, ?_⟩
        · rw [hjoin, jnl_glue]
        · rw [hstep, hpush, hchunks]

/-- C1: for every content string and every chunk budget, the chunks returned
by `splitIntoChunks` arise from a newline-separated decomposition of the
content into contiguous groups of whole lines, taken in order: rejoining the
groups with the separating newlines reproduces the content exactly, and each
chunk is the leading/trailing-whitespace trim of its group (a final group that
is pure whitespace yields no chunk).  In particular chunk boundaries only sit
at newlines of the content, so no single line is divided across two chunks. -/
theorem splitIntoChunks_partition (content : List Char) (B : Nat) :
    ∃ segs, segs ≠ [] ∧ jnl segs = content ∧
      splitIntoChunks content B = chunksOfSegs segs := by
  obtain ⟨l, ls, hsplit⟩ : ∃ l ls, splitOnNl content = l :: ls := by
    cases h : splitOnNl content with
    | nil => exact absurd h (splitOnC_ne_nil '\n' content)
    | cons l ls => exact ⟨l, ls, rfl⟩
  have hstep : splitIntoChunks content B = chunksLoop B ls l := by
    unfold splitIntoChunks
    rw [hsplit]
    simp [chunksLoop, pushLine]
  obtain ⟨segs, hne, hjoin, hchunks⟩ := chunksLoop_spec B ls l
  refine ⟨segs, hne, ?_, hstep ▸ hchunks⟩
  rw [hjoin, ← hsplit]
  show joinSep ['\n'] (splitOnC '\n' content) = content
  exact joinSep_splitOnC '\n' content

/-- Size invariant of the splitting loop: every produced chunk either fits the
budget or is the trim of a single original line. -/
theorem chunksLoop_size (B : Nat) (L : List (List Char)) :
    ∀ (ls : List (List Char)) (acc : List Char),
      (∀ l ∈ ls, l ∈ L) → (acc.length ≤ B ∨ acc ∈ L) →
      ∀ c ∈ chunksLoop B ls acc, c.length ≤ B ∨ ∃ l ∈ L, c = trimL l := by
  intro ls
  induction ls with
  | nil =>
    intro acc _ hacc c hc
    simp only [chunksLoop] at hc
    by_cases he : (trimL acc).isEmpty
    · simp [he] at hc
    · simp only [he, if_neg, Bool.false_eq_true, not_false_eq_true,
        List.mem_singleton] at hc
      subst hc
      rcases hacc with h | h
      · exact Or.inl (Nat.le_trans (length_trimL_le acc) h)
      · exact Or.inr ⟨acc, h, rfl⟩
  | cons l rest ih =>
    intro acc hls hacc c hc
    have hlL : l ∈ L := hls l (List.mem_cons_self l rest)
    have hrest : ∀ x ∈ rest, x ∈ L := fun x hx => hls x (List.mem_cons_of_mem l hx)
    by_cases hcond : acc.length + l.length + 1 > B ∧ acc.length > 0
    · rw [show chunksLoop B (l :: rest) acc =
          trimL acc :: chunksLoop B rest l by simp [chunksLoop, hcond]] at hc
      rcases List.mem_cons.mp hc with h1 | h1
      · subst h1
        rcases hacc with h | h
        · exact Or.inl (Nat.le_trans (length_trimL_le acc) h)
        · exact Or.inr ⟨acc, h, rfl⟩
      · exact ih l hrest (Or.inr hlL) c h1
    · rw [show chunksLoop B (l :: rest) acc =
          chunksLoop B rest (pushLine acc l) by simp [chunksLoop, hcond]] at hc
      rcases Nat.eq_zero_or_pos acc.length with hz | hp
      · have haccnil : acc = [] := List.length_eq_zero.mp hz
        subst haccnil
        have : pushLine [] l = l := by simp [pushLine]
        rw [this] at hc
        exact ih l hrest (Or.inr hlL) c hc
      · have haccne : ¬ acc.isEmpty := by
          cases acc with
          | nil => simp at hp
          | cons a t => simp
        have hfit : acc.length + l.length + 1 ≤ B := by
          rcases Nat.lt_or_ge B (acc.length + l.length + 1) with hlt | hge
          · exact absurd ⟨hlt, hp⟩ hcond
          · exact hge
        have : pushLine acc l = acc ++ '\n' :: l := by simp [pushLine, haccne]
        rw [this] at hc
        refine ih _ hrest (Or.inl ?_) c hc
        simpa [Nat.add_comm, Nat.add_assoc, Nat.add_left_comm] using hfit

/-- C2: every chunk produced by `splitIntoChunks` has length (sum of its line
lengths plus one separator per adjacent pair) at most the budget, except when
it is the trim of a single original line: such an oversized line still becomes
its own chunk, containing no newline, and is never truncated or split. -/
theorem splitIntoChunks_size_bound (content : List Char) (B : Nat)
    (c : List Char) (hc : c ∈ splitIntoChunks content B) :
    c.length ≤ B ∨ ('\n' ∉ c ∧ ∃ l ∈ splitOnNl content, c = trimL l) := by
  have h := chunksLoop_size B (splitOnNl content) (splitOnNl content) []
    (fun l hl => hl) (Or.inl (Nat.zero_le B)) c hc
  rcases h with h | ⟨l, hl, rfl⟩
  · exact Or.inl h
  · refine Or.inr ⟨?_, l, hl, rfl⟩
    intro hmem
    exact mem_splitOnC_no_sep '\n' content l hl (mem_of_mem_trimL hmem)

/-- `MarkdownTranslator.createTranslationPrompt(text, targetLanguage)`
(src/translator.js lines 61-77): the fixed instruction template with the
target language and the chunk text interpolated. -/
def createTranslationPrompt (text targetLanguage : List Char) : List Char :=
  "Translate the following markdown content from English to ".toList ++
  targetLanguage ++
  ". \n    \nIMPORTANT INSTRUCTIONS:\n1. Preserve ALL markdown formatting (headers, links, code blocks, tables, etc.)\n2. Do NOT translate code blocks themselves, URLs, or file paths\n3. DO translate code comments within code blocks (// comments, /* comments */, # comments, etc.)\n4. Do NOT translate markdown syntax characters\n5. Maintain the exact structure and formatting\n6. Only translate the actual text content, not the markup or code\n7. If there are any technical terms or proper nouns that shouldn\x27t be translated, keep them in English\n8. Return ONLY the translated markdown, no explanations or additional text\n\nMarkdown content to translate:\n\n".toList ++
  text

/-- `MarkdownTranslator.translateChunk(chunk, targetLanguage)` (lines 86-96):
build the prompt, issue one provider request, return the response text
trimmed; a provider failure is rethrown unchanged. -/
def translateChunk (provider : List Char → Except (List Char) (List Char))
    (chunk targetLanguage : List Char) : Except (List Char) (List Char) :=
  (provider (createTranslationPrompt chunk targetLanguage)).map trimL

/-- Observable events of a document translation run: an invocation of the
progress callback with `(current, total)`, and a provider request for one
chunk. -/
inductive Event where
  | progress (current total : Nat)
  | request (chunk : List Char)
deriving DecidableEq

/-- The chunk loop of `translateMarkdown` (lines 112-126): for each chunk in
order, invoke the progress callback with `(i + 1, chunks.length)`, then
translate the chunk; a failure aborts the whole run, discarding all previously
translated chunks.  The returned trace records callback invocations and
provider requests in program order. -/
def runChunks (provider : List Char → Except (List Char) (List Char))
    (targetLanguage : List Char) (total : Nat) :
    List (List Char) → Nat → List Event × Except (List Char) (List (List Char))
  | [], _ => ([], Except.ok [])
  | c :: rest, i =>
    match translateChunk provider c targetLanguage with
    | Except.error e =>
      ([Event.progress (i + 1) total, Event.request c], Except.error e)
    | Except.ok t =>
      let pr := runChunks provider targetLanguage total rest (i + 1)
      (Event.progress (i + 1) total :: Event.request c :: pr.1,
        pr.2.map (fun ts => t :: ts))

/-- The trace `runChunks` produces when no chunk fails. -/
def traceFor : List (List Char) → Nat → Nat → List Event
  | [], _, _ => []
  | c :: rest, i, total =>
    Event.progress (i + 1) total :: Event.request c :: traceFor rest (i + 1) total

/-- Progress-callback invocations of a trace, in order. -/
def progressOf (tr : List Event) : List (Nat × Nat) :=
  tr.filterMap fun e =>
    match e with
    | Event.progress a b => some (a, b)
    | Event.request _ => none

/-- Provider requests of a trace, in order. -/
def requestsOf (tr : List Event) : List (List Char) :=
  tr.filterMap fun e =>
    match e with
    | Event.progress _ _ => none
    | Event.request c => some c

/-- The join of the translated chunks with a blank line (line 128). -/
def joinBlank (ts : List (List Char)) : List Char := joinSep ['\n', '\n'] ts

/-- Line 131: append a newline unless the content already ends with one. -/
def ensureTrailingNl (s : List Char) : List Char :=
  if s.getLast? = some '\n' then s else s ++ ['\n']

/-- `translateMarkdown` generalized over the chunk budget: split, translate
each chunk sequentially, join the results with a blank line and enforce a
trailing newline.  Returns the event trace together with the outcome. -/
def translateMarkdownWith (B : Nat)
    (provider : List Char → Except (List Char) (List Char))
    (content targetLanguage : List Char) :
    List Event × Except (List Char) (List Char) :=
  let chunks := splitIntoChunks content B
  let pr := runChunks provider targetLanguage chunks.length chunks 0
  (pr.1, pr.2.map fun ts => ensureTrailingNl (joinBlank ts))

/-- `MarkdownTranslator.translateMarkdown(content, targetLanguage,
progressCallback)` (lines 106-132): it always splits with the class default
`DEFAULT_CHUNK_SIZE`, since the call `this.splitIntoChunks(content)` passes no
size argument. -/
def translateMarkdown (provider : List Char → Except (List Char) (List Char))
    (content targetLanguage : List Char) :
    List Event × Except (List Char) (List Char) :=
  translateMarkdownWith DEFAULT_CHUNK_SIZE provider content targetLanguage

theorem translateMarkdown_snd
    (provider : List Char → Except (List Char) (List Char))
    (content targetLanguage : List Char) :
    (translateMarkdown provider content targetLanguage).2 =
      (runChunks provider targetLanguage
        (splitIntoChunks content DEFAULT_CHUNK_SIZE).length
        (splitIntoChunks content DEFAULT_CHUNK_SIZE) 0).2.map
        (fun ts => ensureTrailingNl (joinBlank ts)) := rfl

/-- Success record returned by `translateFile` (lines 169-175). -/
structure FileSuccess where
  inputPath : List Char
  outputPath : List Char
  targetLanguage : List Char
  originalLength : Nat
  translatedLength : Nat
deriving DecidableEq

/-- Result of one `translateFile` call: the event trace, the files written,
and either a success record or the error message thrown. -/
structure FileRun where
  trace : List Event
  writes : List (List Char × List Char)
  result : Except (List Char) FileSuccess

/-- `MarkdownTranslator.translateFile(inputPath, outputPath, targetLanguage,
progressCallback)` (lines 143-180): fail if the input does not exist or its
content trims to nothing, otherwise translate the whole document and write the
single output file; any error aborts with no file written. -/
def translateFile (fs : List Char → Option (List Char))
    (inputPath outputPath targetLanguage : List Char)
    (provider : List Char → Except (List Char) (List Char)) : FileRun :=
  match fs inputPath with
  | none =>
    ⟨[], [], Except.error ("Input file does not exist: ".toList ++ inputPath)⟩
  | some content =>
    if (trimL content).isEmpty then
      ⟨[], [], Except.error "Input file is empty".toList⟩
    else
      let pr := translateMarkdown provider content targetLanguage
      match pr.2 with
      | Except.error e => ⟨pr.1, [], Except.error e⟩
      | Except.ok t =>
        ⟨pr.1, [(outputPath, t)],
          Except.ok ⟨inputPath, outputPath, targetLanguage,
            content.length, t.length⟩⟩

/-- `inputPattern.replace(/\\/g, '/')` (lines 203, 240-241). -/
def normSlashes (p : List Char) : List Char :=
  p.map fun c => if c = '\\' then '/' else c

/-- Node `path.isAbsolute` on posix: the path starts with a slash. -/
def isAbsoluteP (p : List Char) : Bool :=
  match p with
  | '/' :: _ => true
  | _ => false

/-- Split a path into slash-separated segments. -/
def splitSlash (p : List Char) : List (List Char) := splitOnC '/' p

/-- `part.includes('*')` (line 248). -/
def hasWildcard (s : List Char) : Bool := s.contains '*'

/-- Modelled from Node `path.posix`: segment normalization of an absolute
path; empty and `.` segments vanish and `..` pops (dropped at the root). -/
def normAbs : List (List Char) → List (List Char) → List (List Char)
  | stack, [] => stack.reverse
  | stack, s :: rest =>
    if s = [] ∨ s = ['.'] then normAbs stack rest
    else if s = ['.', '.'] then normAbs stack.tail rest
    else normAbs (s :: stack) rest

/-- Modelled from Node `path.posix`: segment normalization of a relative
path, where leading `..` segments are kept. -/
def normRel : List (List Char) → List (List Char) → List (List Char)
  | stack, [] => stack.reverse
  | stack, s :: rest =>
    if s = [] ∨ s = ['.'] then normRel stack rest
    else if s = ['.', '.'] then
      match stack with
      | [] => normRel [['.', '.']] rest
      | top :: t =>
        if top = ['.', '.'] then normRel (s :: top :: t) rest
        else normRel t rest
    else normRel (s :: stack) rest

/-- Modelled from Node `path.posix.resolve` with a fixed absolute working
directory: the resulting absolute path as a segment list. -/
def resolveP (cwd p : List Char) : List (List Char) :=
  normAbs [] (splitSlash (if isAbsoluteP p then p else cwd ++ '/' :: p))

/-- Drop the common leading segments of two resolved paths. -/
def dropCommon2 : List (List Char) → List (List Char) → List (List Char) × List (List Char)
  | a :: as, b :: bs =>
    if a = b then dropCommon2 as bs else (a :: as, b :: bs)
  | as, bs => (as, bs)

/-- Modelled from Node `path.posix.relative(fromP, toP)` resolved against the
working directory `cwd`: walk up with `..` for each remaining source segment,
then down the remaining target segments. -/
def relativeP (cwd fromP toP : List Char) : List Char :=
  let pair := dropCommon2 (resolveP cwd fromP) (resolveP cwd toP)
  joinSep ['/'] (pair.1.map (fun _ => ['.', '.']) ++ pair.2)

/-- The part of a path after its last slash. -/
def baseNameP (p : List Char) : List Char :=
  (p.reverse.takeWhile fun c => c != '/').reverse

/-- The part of a path before its last slash (Node `path.parse(...).dir`). -/
def dirNameP (p : List Char) : List Char :=
  let b := baseNameP p
  if b.length = p.length then []
  else
    let d := p.take (p.length - b.length - 1)
    if d = [] then ['/'] else d

/-- Modelled from Node `path.extname` restricted to a basename: the substring
from the last dot, empty when there is no dot, when the dot is the first
character, or for the special name `..`. -/
def extnameOfBase (b : List Char) : List Char :=
  let after := b.reverse.takeWhile fun c => c != '.'
  if after.length = b.length then []
  else if b.length - after.length - 1 = 0 then []
  else if b = ['.', '.'] then []
  else '.' :: after.reverse

/-- Node `path.extname` (used at line 218). -/
def extnameL (p : List Char) : List Char := extnameOfBase (baseNameP p)

/-- The fields of Node `path.parse` used by `translateFiles`. -/
structure ParsedPath where
  dir : List Char
  name : List Char
  ext : List Char
deriving DecidableEq

/-- Node `path.parse` (lines 261, 266). -/
def parseP (p : List Char) : ParsedPath :=
  let b := baseNameP p
  let e := extnameOfBase b
  ⟨dirNameP p, b.take (b.length - e.length), e⟩

/-- Modelled from Node `path.posix.join`: drop empty parts, join with
slashes, and normalize the result (`.` when everything vanishes). -/
def joinP (parts : List (List Char)) : List Char :=
  let joined := joinSep ['/'] (parts.filter fun x => ¬ x.isEmpty)
  if joined = [] then ['.']
  else if isAbsoluteP joined then
    '/' :: joinSep ['/'] (normAbs [] (splitSlash joined))
  else
    let ns := normRel [] (splitSlash joined)
    if ns = [] then ['.'] else joinSep ['/'] ns

/-- JS ASCII lower-casing as applied by `.toLowerCase()` to the extension
comparison at line 218 (only ASCII letters are relevant there). -/
def jsToLower (c : Char) : Char :=
  if 'A' ≤ c ∧ c ≤ 'Z' then Char.ofNat (c.toNat + 32) else c

/-- The markdown filter of `translateFiles` (lines 217-220): keep a file
exactly when its extension, lower-cased, is `.md`, `.markdown` or `.mdx`. -/
def isMarkdownFile (f : List Char) : Bool :=
  let ext := (extnameL f).map jsToLower
  ext = ".md".toList ∨ ext = ".markdown".toList ∨ ext = ".mdx".toList

/-- The output-path computation of `translateFiles` (lines 236-269): in
structured mode, extract a literal base directory from the pattern only when
the (slash-normalized) pattern is absolute and its first wildcard segment
comes after at least one literal segment; compute the path of the file relative to
that base when the file starts with it, and relative to the working directory
otherwise; in flat mode just keep the base name.  A non-empty suffix is
inserted before the extension as `name_suffix.ext`. -/
def computeOutputPath (cwd inputPattern outputDir suffix : List Char)
    (preserveStructure : Bool) (inputFile : List Char) : List Char :=
  if preserveStructure then
    let nFile := normSlashes inputFile
    let nPat := normSlashes inputPattern
    let baseDir :=
      if isAbsoluteP nPat then
        let parts := splitSlash nPat
        let wIdx := parts.findIdx hasWildcard
        if 0 < wIdx ∧ wIdx < parts.length then
          joinSep ['/'] (parts.take wIdx)
        else []
      else []
    let relativePath :=
      if ¬ baseDir.isEmpty ∧ baseDir.isPrefixOf nFile then
        relativeP cwd baseDir nFile
      else relativeP cwd cwd nFile
    let parsed := parseP relativePath
    let newName :=
      if ¬ suffix.isEmpty then parsed.name ++ '_' :: suffix ++ parsed.ext
      else parsed.name ++ parsed.ext
    joinP [outputDir, parsed.dir, newName]
  else
    let parsed := parseP inputFile
    let newName :=
      if ¬ suffix.isEmpty then parsed.name ++ '_' :: suffix ++ parsed.ext
      else parsed.name ++ parsed.ext
    joinP [outputDir, newName]

/-- Per-file outcome collected by `translateFiles` (lines 282, 289-293): a
success record, or — for a failed file — its input path and error message
together with `success: false`. -/
inductive Outcome where
  | ok (r : FileSuccess)
  | err (inputPath message : List Char)
deriving DecidableEq

/-- The per-file loop of `translateFiles` (lines 234-295): each file is
translated inside its own try/catch, so a failure is recorded as the outcome of that file and the loop continues with the remaining files. -/
def batchLoop (fs : List Char → Option (List Char))
    (cwd inputPattern outputDir targetLanguage suffix : List Char)
    (preserveStructure : Bool)
    (provider : List Char → Except (List Char) (List Char)) :
    List (List Char) → List Outcome × List (List Char × List Char)
  | [] => ([], [])
  | f :: rest =>
    let outP := computeOutputPath cwd inputPattern outputDir suffix
      preserveStructure f
    let run := translateFile fs f outP targetLanguage provider
    let restR := batchLoop fs cwd inputPattern outputDir targetLanguage suffix
      preserveStructure provider rest
    match run.result with
    | Except.ok r => (Outcome.ok r :: restR.1, run.writes ++ restR.2)
    | Except.error m => (Outcome.err f m :: restR.1, run.writes ++ restR.2)

/-- `MarkdownTranslator.translateFiles(inputPattern, outputDir,
targetLanguage, options)` (lines 194-314), with the glob expansion an input
(`files` is the match list): fail when nothing matched or when no matched file
has a markdown extension, otherwise run the per-file loop and return the
outcome list together with all files written. -/
def translateFiles (fs : List Char → Option (List Char))
    (cwd : List Char) (files : List (List Char))
    (inputPattern outputDir targetLanguage suffix : List Char)
    (preserveStructure : Bool)
    (provider : List Char → Except (List Char) (List Char)) :
    Except (List Char) (List Outcome × List (List Char × List Char)) :=
  if files.isEmpty then
    Except.error ("No files found matching pattern: ".toList ++ inputPattern)
  else
    let markdownFiles := files.filter isMarkdownFile
    if markdownFiles.isEmpty then
      Except.error "No markdown files found in the matched files".toList
    else
      Except.ok (batchLoop fs cwd inputPattern outputDir targetLanguage suffix
        preserveStructure provider markdownFiles)

theorem runChunks_cons_err {provider : List Char → Except (List Char) (List Char)}
    {lang c : List Char} {e : List Char} (total i : Nat) (rest : List (List Char))
    (h : translateChunk provider c lang = Except.error e) :
    runChunks provider lang total (c :: rest) i =
      ([Event.progress (i + 1) total, Event.request c], Except.error e) := by
  simp only [runChunks]
  rw [h]

theorem runChunks_cons_ok {provider : List Char → Except (List Char) (List Char)}
    {lang c t : List Char} (total i : Nat) (rest : List (List Char))
    (h : translateChunk provider c lang = Except.ok t) :
    runChunks provider lang total (c :: rest) i =
      (Event.progress (i + 1) total :: Event.request c ::
         (runChunks provider lang total rest (i + 1)).1,
       (runChunks provider lang total rest (i + 1)).2.map fun ts => t :: ts) := by
  simp only [runChunks]
  rw [h]

theorem requestsOf_cons_progress (a b : Nat) (tr : List Event) :
    requestsOf (Event.progress a b :: tr) = requestsOf tr := by
  simp [requestsOf]

theorem requestsOf_cons_request (c : List Char) (tr : List Event) :
    requestsOf (Event.request c :: tr) = c :: requestsOf tr := by
  simp [requestsOf]

/-- If every chunk before position `k` translates successfully and chunk `k`
fails with `e`, the run fails with `e` and the requested chunks are exactly
the first `k + 1`. -/
theorem runChunks_err_spec {provider : List Char → Except (List Char) (List Char)}
    {lang e : List Char} :
    ∀ (cs : List (List Char)) (k : Nat) (hk : k < cs.length),
      (∀ j (hj : j < cs.length), j < k →
        (translateChunk provider (cs.get ⟨j, hj⟩) lang).isOk = true) →
      translateChunk provider (cs.get ⟨k, hk⟩) lang = Except.error e →
      ∀ total i,
        (runChunks provider lang total cs i).2 = Except.error e ∧
        requestsOf (runChunks provider lang total cs i).1 = cs.take (k + 1) := by
  intro cs
  induction cs with
  | nil =>
    intro k hk
    simp at hk
  | cons c rest ih =>
    intro k hk hpre herr total i
    cases k with
    | zero =>
      have herrc : translateChunk provider c lang = Except.error e := herr
      rw [runChunks_cons_err total i rest herrc]
      simp [requestsOf]
    | succ k' =>
      have h0 : (translateChunk provider c lang).isOk = true :=
        hpre 0 (by simp) (Nat.succ_pos k')
      obtain ⟨t, ht⟩ : ∃ t, translateChunk provider c lang = Except.ok t := by
        cases hx : translateChunk provider c lang with
        | error e' => rw [hx] at h0; simp [Except.isOk, Except.toBool] at h0
        | ok t => exact ⟨t, rfl⟩
      rw [runChunks_cons_ok total i rest ht]
      have hk' : k' < rest.length := Nat.lt_of_succ_lt_succ hk
      have hpre' : ∀ j (hj : j < rest.length), j < k' →
          (translateChunk provider (rest.get ⟨j, hj⟩) lang).isOk = true :=
        fun j hj hjk =>
          hpre (j + 1) (Nat.succ_lt_succ hj) (Nat.succ_lt_succ hjk)
      have herr' : translateChunk provider (rest.get ⟨k', hk'⟩) lang =
          Except.error e := herr
      obtain ⟨ha, hb⟩ := ih k' hk' hpre' herr' total (i + 1)
      constructor
      · simp only [ha, Except.map]
      · rw [requestsOf_cons_progress, requestsOf_cons_request, hb]
        rfl

/-- A successful run visits every chunk, firing the progress callback and the
provider request for each in program order. -/
theorem runChunks_ok_trace {provider : List Char → Except (List Char) (List Char)}
    {lang : List Char} (total : Nat) :
    ∀ (cs : List (List Char)) (i : Nat),
      (runChunks provider lang total cs i).2.isOk = true →
      (runChunks provider lang total cs i).1 = traceFor cs i total := by
  intro cs
  induction cs with
  | nil => intro i _; rfl
  | cons c rest ih =>
    intro i hok
    cases ht : translateChunk provider c lang with
    | error e =>
      rw [runChunks_cons_err total i rest ht] at hok
      simp [Except.isOk, Except.toBool] at hok
    | ok t =>
      rw [runChunks_cons_ok total i rest ht] at hok ⊢
      simp only [traceFor, List.cons.injEq, true_and]
      refine ih (i + 1) ?_
      cases hx : (runChunks provider lang total rest (i + 1)).2 with
      | error e => rw [hx] at hok; simp [Except.map, Except.isOk, Except.toBool] at hok
      | ok ts => rfl

/-- Every element of the result list of a successful run is a trimmed provider
response. -/
theorem runChunks_ok_trimmed {provider : List Char → Except (List Char) (List Char)}
    {lang : List Char} (total : Nat) :
    ∀ (cs : List (List Char)) (i : Nat) (ts : List (List Char)),
      (runChunks provider lang total cs i).2 = Except.ok ts →
      ∀ t ∈ ts, ∃ u, t = trimL u := by
  intro cs
  induction cs with
  | nil =>
    intro i ts h
    simp only [runChunks, Except.ok.injEq] at h
    subst h
    simp
  | cons c rest ih =>
    intro i ts h
    cases ht : translateChunk provider c lang with
    | error e =>
      rw [runChunks_cons_err total i rest ht] at h
      simp at h
    | ok t =>
      rw [runChunks_cons_ok total i rest ht] at h
      cases hx : (runChunks provider lang total rest (i + 1)).2 with
      | error e => rw [hx] at h; simp [Except.map] at h
      | ok ts' =>
        rw [hx] at h
        simp only [Except.map, Except.ok.injEq] at h
        subst h
        intro x hx2
        rcases List.mem_cons.mp hx2 with h1 | h1
        · subst h1
          obtain ⟨u, hu⟩ : ∃ u, (provider (createTranslationPrompt c lang)).map trimL
              = Except.ok (trimL u) ∧ True ∨ True := ⟨[], Or.inr trivial⟩
          cases hp : provider (createTranslationPrompt c lang) with
          | error e' =>
            exfalso
            unfold translateChunk at ht
            rw [hp] at ht
            simp [Except.map] at ht
          | ok u' =>
            unfold translateChunk at ht
            rw [hp] at ht
            simp only [Except.map, Except.ok.injEq] at ht
            exact ⟨u', ht.symm⟩
        · exact ih (i + 1) ts' hx x h1

/-- The requests of a full trace are the chunks themselves. -/
theorem requestsOf_traceFor (total : Nat) :
    ∀ (cs : List (List Char)) (i : Nat), requestsOf (traceFor cs i total) = cs := by
  intro cs
  induction cs with
  | nil => intro i; rfl
  | cons c rest ih =>
    intro i
    rw [traceFor, requestsOf_cons_progress, requestsOf_cons_request, ih (i + 1)]

/-- The progress invocations of a full trace are `(i+1, total), (i+2, total),
...`, one per chunk. -/
theorem progressOf_traceFor (total : Nat) :
    ∀ (cs : List (List Char)) (i : Nat),
      progressOf (traceFor cs i total) =
        (List.range cs.length).map fun j => (i + j + 1, total) := by
  intro cs
  induction cs with
  | nil => intro i; rfl
  | cons c rest ih =>
    intro i
    have hstep : progressOf (traceFor (c :: rest) i total) =
        (i + 1, total) :: progressOf (traceFor rest (i + 1) total) := by
      simp [traceFor, progressOf]
    rw [hstep, ih (i + 1)]
    rw [show (c :: rest).length = rest.length + 1 from rfl,
      List.range_succ_eq_map]
    simp only [List.map_cons, List.map_map]
    have harg : ∀ j ∈ List.range rest.length,
        (fun j => (i + 1 + j + 1, total)) j =
          ((fun j => (i + j + 1, total)) ∘ Nat.succ) j := by
      intro j hj
      simp only [Function.comp]
      have : i + 1 + j + 1 = i + (j + 1) + 1 := by omega
      rw [this]
    rw [List.map_congr_left harg]

/-- C5: if every chunk before position `k` translates successfully and chunk
`k` fails with error `e`, `translateDocument` fails as a whole with `e`: the
provider is asked only about chunks `0..k` (none after the failing one), the
already-translated results are discarded (the outcome carries only the
error), and `translateFile` on the same content writes no output file and
surfaces the same error. -/
theorem translateDocument_all_or_nothing
    (provider : List Char → Except (List Char) (List Char))
    (fs : List Char → Option (List Char))
    (content targetLanguage inputPath outputPath e : List Char) (k : Nat)
    (hk : k < (splitIntoChunks content DEFAULT_CHUNK_SIZE).length)
    (hpre : ∀ j (hj : j < (splitIntoChunks content DEFAULT_CHUNK_SIZE).length),
      j < k → (translateChunk provider
        ((splitIntoChunks content DEFAULT_CHUNK_SIZE).get ⟨j, hj⟩)
        targetLanguage).isOk = true)
    (herr : translateChunk provider
      ((splitIntoChunks content DEFAULT_CHUNK_SIZE).get ⟨k, hk⟩)
      targetLanguage = Except.error e)
    (hfs : fs inputPath = some content)
    (hne : ¬ (trimL content).isEmpty) :
    (translateMarkdown provider content targetLanguage).2 = Except.error e ∧
    requestsOf (translateMarkdown provider content targetLanguage).1 =
      (splitIntoChunks content DEFAULT_CHUNK_SIZE).take (k + 1) ∧
    (translateFile fs inputPath outputPath targetLanguage provider).writes = [] ∧
    (translateFile fs inputPath outputPath targetLanguage provider).result =
      Except.error e := by
  obtain ⟨ha, hb⟩ := runChunks_err_spec (splitIntoChunks content DEFAULT_CHUNK_SIZE)
    k hk hpre herr (splitIntoChunks content DEFAULT_CHUNK_SIZE).length 0
  have hdoc : (translateMarkdown provider content targetLanguage).2 =
      Except.error e := by
    show ((runChunks provider targetLanguage
        (splitIntoChunks content DEFAULT_CHUNK_SIZE).length
        (splitIntoChunks content DEFAULT_CHUNK_SIZE) 0).2.map
        fun ts => ensureTrailingNl (joinBlank ts)) = Except.error e
    rw [ha]
    rfl
  have htrace : requestsOf (translateMarkdown provider content targetLanguage).1 =
      (splitIntoChunks content DEFAULT_CHUNK_SIZE).take (k + 1) := hb
  refine ⟨hdoc, htrace, ?_, ?_⟩
  · unfold translateFile
    rw [hfs]
    simp only [hne, if_neg, Bool.false_eq_true, not_false_eq_true]
    rw [hdoc]
  · unfold translateFile
    rw [hfs]
    simp only [hne, if_neg, Bool.false_eq_true, not_false_eq_true]
    rw [hdoc]

/-- C7: on a successful run, the progress callback fires exactly once per
chunk, immediately before the provider request of that chunk, with arguments
`(1, n), (2, n), ..., (n, n)` in this order, where `n` is the chunk count. -/
theorem translateDocument_progress
    (provider : List Char → Except (List Char) (List Char))
    (content targetLanguage : List Char)
    (hok : (translateMarkdown provider content targetLanguage).2.isOk = true) :
    (translateMarkdown provider content targetLanguage).1 =
      traceFor (splitIntoChunks content DEFAULT_CHUNK_SIZE) 0
        (splitIntoChunks content DEFAULT_CHUNK_SIZE).length ∧
    progressOf (translateMarkdown provider content targetLanguage).1 =
      (List.range (splitIntoChunks content DEFAULT_CHUNK_SIZE).length).map
        fun j => (j + 1, (splitIntoChunks content DEFAULT_CHUNK_SIZE).length) := by
  have hok2 : (runChunks provider targetLanguage
      (splitIntoChunks content DEFAULT_CHUNK_SIZE).length
      (splitIntoChunks content DEFAULT_CHUNK_SIZE) 0).2.isOk = true := by
    have : (translateMarkdown provider content targetLanguage).2 =
        (runChunks provider targetLanguage
          (splitIntoChunks content DEFAULT_CHUNK_SIZE).length
          (splitIntoChunks content DEFAULT_CHUNK_SIZE) 0).2.map
          (fun ts => ensureTrailingNl (joinBlank ts)) := rfl
    rw [this] at hok
    cases hx : (runChunks provider targetLanguage
        (splitIntoChunks content DEFAULT_CHUNK_SIZE).length
        (splitIntoChunks content DEFAULT_CHUNK_SIZE) 0).2 with
    | error er => rw [hx] at hok; simp [Except.map, Except.isOk, Except.toBool] at hok
    | ok ts => rfl
  have htr := runChunks_ok_trace (splitIntoChunks content DEFAULT_CHUNK_SIZE).length
    (splitIntoChunks content DEFAULT_CHUNK_SIZE) 0 hok2
  have hfst : (translateMarkdown provider content targetLanguage).1 =
      (runChunks provider targetLanguage
        (splitIntoChunks content DEFAULT_CHUNK_SIZE).length
        (splitIntoChunks content DEFAULT_CHUNK_SIZE) 0).1 := rfl
  refine ⟨hfst ▸ htr, ?_⟩
  rw [hfst, htr, progressOf_traceFor]
  simp

/-- C8: the document-level entry point always uses the fixed default chunk
budget of 800000 characters: `translateMarkdown` is exactly the
budget-generalized pipeline applied at `DEFAULT_CHUNK_SIZE = 800000` (no caller
can pass a different size through it, `translateFile` or `translateFiles`),
and consequently the chunks requested from the provider are those of
`splitIntoChunks content 800000`. -/
theorem translateMarkdown_fixed_budget
    (provider : List Char → Except (List Char) (List Char))
    (content targetLanguage : List Char) :
    translateMarkdown provider content targetLanguage =
      translateMarkdownWith 800000 provider content targetLanguage ∧
    DEFAULT_CHUNK_SIZE = 800000 ∧
    requestsOf (translateMarkdown (fun _ => Except.ok [])
        content targetLanguage).1 =
      splitIntoChunks content 800000 := by
  refine ⟨rfl, rfl, ?_⟩
  have hconst : ∀ (cs : List (List Char)) (i total : Nat),
      ((runChunks (fun _ => Except.ok ([] : List Char)) targetLanguage
        total cs i).2).isOk = true := by
    intro cs
    induction cs with
    | nil => intro i total; rfl
    | cons c rest ih =>
      intro i total
      have ht : translateChunk (fun _ => Except.ok ([] : List Char)) c
          targetLanguage = Except.ok (trimL []) := rfl
      rw [runChunks_cons_ok total i rest ht]
      cases hx : (runChunks (fun _ => Except.ok ([] : List Char)) targetLanguage
          total rest (i + 1)).2 with
      | error er =>
        have := ih (i + 1) total
        rw [hx] at this
        simp [Except.isOk, Except.toBool] at this
      | ok ts => rfl
  have htr := @runChunks_ok_trace (fun _ => Except.ok ([] : List Char))
    targetLanguage (splitIntoChunks content DEFAULT_CHUNK_SIZE).length
    (splitIntoChunks content DEFAULT_CHUNK_SIZE) 0
    (hconst _ 0 _)
  have hfst : (translateMarkdown (fun _ => Except.ok ([] : List Char))
      content targetLanguage).1 =
      (runChunks (fun _ => Except.ok ([] : List Char)) targetLanguage
        (splitIntoChunks content DEFAULT_CHUNK_SIZE).length
        (splitIntoChunks content DEFAULT_CHUNK_SIZE) 0).1 := rfl
  rw [hfst, htr, requestsOf_traceFor]
  rfl

/-- C9: `translateFile` rejects any input whose content trims to the empty
string (not just the truly empty file) with the error `Input file is empty`,
before any provider request or write happens. -/
theorem translateFile_rejects_blank (fs : List Char → Option (List Char))
    (inputPath outputPath targetLanguage content : List Char)
    (provider : List Char → Except (List Char) (List Char))
    (hfs : fs inputPath = some content)
    (hblank : (trimL content).isEmpty = true) :
    translateFile fs inputPath outputPath targetLanguage provider =
      ⟨[], [], Except.error "Input file is empty".toList⟩ := by
  unfold translateFile
  rw [hfs]
  simp [hblank]

/-- A string ends with exactly one trailing newline. -/
def exactlyOneTrailingNl (s : List Char) : Prop :=
  s.getLast? = some '\n' ∧ s.dropLast.getLast? ≠ some '\n'

theorem joinSep_concat (sep : List Char) :
    ∀ (ts : List (List Char)) (t : List Char),
      ∃ pre, joinSep sep (ts ++ [t]) = pre ++ t := by
  intro ts
  induction ts with
  | nil => intro t; exact ⟨[], rfl⟩
  | cons x xs ih =>
    intro t
    obtain ⟨pre, hpre⟩ := ih t
    refine ⟨x ++ sep ++ pre, ?_⟩
    rw [List.cons_append, joinSep_cons _ _ _ (by simp), hpre]
    simp [List.append_assoc]

theorem getLast?_append_ne (pre : List Char) :
    ∀ (t : List Char), t ≠ [] → (pre ++ t).getLast? = t.getLast? := by
  induction pre with
  | nil => intro t _; rfl
  | cons c pre' ih =>
    intro t ht
    rw [List.cons_append]
    cases hx : pre' ++ t with
    | nil =>
      rcases List.append_eq_nil.mp hx with ⟨_, h2⟩
      exact absurd h2 ht
    | cons y ys =>
      rw [List.getLast?_cons_cons, ← hx]
      exact ih t ht

theorem dropWhile_eq_self_of (p : Char → Bool) (l : List Char)
    (h : ∀ x ∈ l, p x = false) : l.dropWhile p = l := by
  cases l with
  | nil => rfl
  | cons c t =>
    have : ¬ p c = true := by
      rw [h c (List.mem_cons_self c t)]
      simp
    rw [List.dropWhile_cons_of_neg this]

theorem trimL_of_no_ws (l : List Char) (h : ∀ x ∈ l, isJsWs x = false) :
    trimL l = l := by
  unfold trimL trimRightL trimLeftL
  rw [dropWhile_eq_self_of _ _ h]
  rw [dropWhile_eq_self_of _ _ fun x hx => h x (List.mem_reverse.mp hx)]
  exact List.reverse_reverse l

/-- Amended C6: `translateDocument` joins the per-chunk results with a blank
line and guarantees at least one trailing newline (appending one exactly when
the joined text lacks it); when the translated result of every chunk is non-empty
— in particular whenever the provider response for the last chunk contains
non-whitespace — the result ends with exactly one trailing newline. -/
theorem translateDocument_join_trailing
    (provider : List Char → Except (List Char) (List Char))
    (content targetLanguage : List Char) (ts : List (List Char))
    (hrun : (runChunks provider targetLanguage
      (splitIntoChunks content DEFAULT_CHUNK_SIZE).length
      (splitIntoChunks content DEFAULT_CHUNK_SIZE) 0).2 = Except.ok ts) :
    (translateMarkdown provider content targetLanguage).2 =
      Except.ok (ensureTrailingNl (joinBlank ts)) ∧
    (ensureTrailingNl (joinBlank ts)).getLast? = some '\n' ∧
    ((∀ t ∈ ts, t ≠ []) → exactlyOneTrailingNl (ensureTrailingNl (joinBlank ts))) := by
  refine ⟨?_, ?_, ?_⟩
  · show ((runChunks provider targetLanguage
        (splitIntoChunks content DEFAULT_CHUNK_SIZE).length
        (splitIntoChunks content DEFAULT_CHUNK_SIZE) 0).2.map
        fun ts => ensureTrailingNl (joinBlank ts)) = _
    rw [hrun]
    rfl
  · unfold ensureTrailingNl
    by_cases hl : (joinBlank ts).getLast? = some '\n'
    · rw [if_pos hl]
      exact hl
    · rw [if_neg hl]
      exact List.getLast?_concat _
  · intro hne
    rcases List.eq_nil_or_concat ts with hnil | ⟨pre, t, hconc⟩
    · subst hnil
      constructor <;> decide
    all_goals rw [List.concat_eq_append] at hconc
    all_goals subst hconc
    · have htmem : t ∈ pre ++ [t] := List.mem_append_right pre (by simp)
      have htne : t ≠ [] := hne t htmem
      obtain ⟨u, hu⟩ := runChunks_ok_trimmed
        (splitIntoChunks content DEFAULT_CHUNK_SIZE).length
        (splitIntoChunks content DEFAULT_CHUNK_SIZE) 0 (pre ++ [t]) hrun t htmem
      obtain ⟨ch, hch⟩ : ∃ ch, t.getLast? = some ch := by
        cases hx : t.getLast? with
        | none => exact absurd (List.getLast?_eq_none_iff.mp hx) htne
        | some ch => exact ⟨ch, rfl⟩
      have hchws : isJsWs ch = false :=
        @getLast?_trimL_not_ws u ch (by rw [← hu]; exact hch)
      have hchnl : ch ≠ '\n' := by
        intro hc
        rw [hc] at hchws
        simp [isJsWs] at hchws
      obtain ⟨pre2, hpre2⟩ := joinSep_concat ['\n', '\n'] pre t
      have hjlast : (joinBlank (pre ++ [t])).getLast? = some ch := by
        show (joinSep ['\n', '\n'] (pre ++ [t])).getLast? = some ch
        rw [hpre2, getLast?_append_ne pre2 t htne]
        exact hch
      have hcond : ¬ (joinBlank (pre ++ [t])).getLast? = some '\n' := by
        rw [hjlast]
        simp [hchnl]
      unfold ensureTrailingNl
      rw [if_neg hcond]
      constructor
      · exact List.getLast?_concat _
      · rw [List.dropLast_concat, hjlast]
        simp [hchnl]

theorem chunksLoop_accum (B : Nat) (l : List Char) (ls : List (List Char))
    (acc : List Char)
    (h : ¬ (acc.length + l.length + 1 > B ∧ acc.length > 0)) :
    chunksLoop B (l :: ls) acc = chunksLoop B ls (pushLine acc l) := by
  simp [chunksLoop, h]

theorem chunksLoop_flush (B : Nat) (l : List Char) (ls : List (List Char))
    (acc : List Char)
    (h : acc.length + l.length + 1 > B ∧ acc.length > 0) :
    chunksLoop B (l :: ls) acc = trimL acc :: chunksLoop B ls l := by
  simp [chunksLoop, h]

theorem chunks_of_big_line_cex :
    splitIntoChunks (List.replicate 800000 'a' ++ '\n' :: ['b'])
      DEFAULT_CHUNK_SIZE = [List.replicate 800000 'a', ['b']] := by
  have hnomem : '\n' ∉ List.replicate 800000 'a' := by
    intro h
    have := List.eq_of_mem_replicate h
    simp at this
  have hsplit : splitOnNl (List.replicate 800000 'a' ++ '\n' :: ['b']) =
      [List.replicate 800000 'a', ['b']] := by
    unfold splitOnNl
    rw [splitOnC_append_sep '\n' _ _ hnomem]
    rfl
  unfold splitIntoChunks
  rw [hsplit]
  have hc1 : ¬ (([] : List Char).length + (List.replicate 800000 'a').length + 1 >
      DEFAULT_CHUNK_SIZE ∧ ([] : List Char).length > 0) := by
    intro h
    exact absurd h.2 (by simp)
  rw [chunksLoop_accum _ _ _ _ hc1]
  have hpush : pushLine [] (List.replicate 800000 'a') =
      List.replicate 800000 'a' := rfl
  rw [hpush]
  have hc2 : (List.replicate 800000 'a').length + (['b'] : List Char).length + 1 >
      DEFAULT_CHUNK_SIZE ∧ (List.replicate 800000 'a').length > 0 := by
    rw [List.length_replicate]
    refine ⟨?_, ?_⟩ <;> norm_num [DEFAULT_CHUNK_SIZE]
  rw [chunksLoop_flush _ _ _ _ hc2]
  have htrim : trimL (List.replicate 800000 'a') = List.replicate 800000 'a' := by
    apply trimL_of_no_ws
    intro x hx
    rw [List.eq_of_mem_replicate hx]
    rfl
  rw [htrim]
  rfl

/-- Counterexample to C6 as stated: when the provider response for each
chunk trims to the empty string, the blank-line join itself ends the output,
and `translateDocument` returns text ending in two newlines, not exactly one.
The input is a single 800000-character line followed by the line `b`, which
splits into two chunks under the default budget; the provider answers a lone
space everywhere. -/
theorem translateDocument_trailing_cex :
    (translateMarkdown (fun _ => Except.ok [' '])
      (List.replicate 800000 'a' ++ '\n' :: ['b']) "Spanish".toList).2 =
      Except.ok ['\n', '\n'] ∧
    ¬ exactlyOneTrailingNl ['\n', '\n'] := by
  constructor
  · have ht : ∀ c : List Char, translateChunk (fun _ => Except.ok [' ']) c
        "Spanish".toList = Except.ok [] := fun c => rfl
    rw [translateMarkdown_snd, chunks_of_big_line_cex]
    rw [runChunks_cons_ok _ 0 _ (ht (List.replicate 800000 'a'))]
    rw [runChunks_cons_ok _ 1 _ (ht ['b'])]
    rfl
  · intro h
    exact absurd h.2 (by simp [List.dropLast])

/-- C3, evaluated on the code: for the relative pattern `docs/**/*.md` the
base-directory extraction is skipped (it only runs for absolute patterns), so
with working directory `/w`, matched file `docs/api/ref.md`, output directory
`translations` and no suffix the computed destination keeps the `docs` prefix
— `translations/docs/api/ref.md`, not the `translations/api/ref.md` required
by the claim, the specification, and the repository README.  The intended
stripping only happens for the equivalent absolute pattern. -/
theorem computeOutputPath_relative_base_ignored :
    computeOutputPath "/w".toList "docs/**/*.md".toList "translations".toList
      [] true "docs/api/ref.md".toList = "translations/docs/api/ref.md".toList ∧
    computeOutputPath "/w".toList "docs/**/*.md".toList "translations".toList
      [] true "docs/api/ref.md".toList ≠ "translations/api/ref.md".toList ∧
    computeOutputPath "/w".toList "/w/docs/**/*.md".toList "translations".toList
      [] true "/w/docs/api/ref.md".toList = "translations/api/ref.md".toList := by
  refine ⟨by decide, by decide, by decide⟩

/-- The outcome `translateFiles` records for one file, as a function of that
file alone. -/
def outcomeOf (fs : List Char → Option (List Char))
    (cwd inputPattern outputDir targetLanguage suffix : List Char)
    (preserveStructure : Bool)
    (provider : List Char → Except (List Char) (List Char))
    (f : List Char) : Outcome :=
  match (translateFile fs f
      (computeOutputPath cwd inputPattern outputDir suffix preserveStructure f)
      targetLanguage provider).result with
  | Except.ok r => Outcome.ok r
  | Except.error m => Outcome.err f m

/-- The writes `translateFiles` performs for one file, as a function of that
file alone. -/
def writesOf (fs : List Char → Option (List Char))
    (cwd inputPattern outputDir targetLanguage suffix : List Char)
    (preserveStructure : Bool)
    (provider : List Char → Except (List Char) (List Char))
    (f : List Char) : List (List Char × List Char) :=
  (translateFile fs f
      (computeOutputPath cwd inputPattern outputDir suffix preserveStructure f)
      targetLanguage provider).writes

theorem batchLoop_eq_map (fs : List Char → Option (List Char))
    (cwd inputPattern outputDir targetLanguage suffix : List Char)
    (preserveStructure : Bool)
    (provider : List Char → Except (List Char) (List Char)) :
    ∀ l : List (List Char),
      batchLoop fs cwd inputPattern outputDir targetLanguage suffix
        preserveStructure provider l =
      (l.map (outcomeOf fs cwd inputPattern outputDir targetLanguage suffix
          preserveStructure provider),
       (l.map (writesOf fs cwd inputPattern outputDir targetLanguage suffix
          preserveStructure provider)).join) := by
  intro l
  induction l with
  | nil => rfl
  | cons f rest ih =>
    simp only [batchLoop, ih, List.map_cons, List.join]
    cases hres : (translateFile fs f
        (computeOutputPath cwd inputPattern outputDir suffix preserveStructure f)
        targetLanguage provider).result with
    | ok r => simp [outcomeOf, writesOf, hres]
    | error m => simp [outcomeOf, writesOf, hres]

/-- C4: batch translation isolates failures per file.  Whenever the match
list is non-empty and at least one matched file has a markdown extension,
`translateFiles` succeeds with exactly one outcome per markdown file, in
order; the outcome of each file (a success record, or its input path with the
error message for a failed file) and each file's writes depend on that file
alone, so one file's failure never prevents the remaining files from being
attempted or written. -/
theorem translateFiles_isolates_failures (fs : List Char → Option (List Char))
    (cwd : List Char) (files : List (List Char))
    (inputPattern outputDir targetLanguage suffix : List Char)
    (preserveStructure : Bool)
    (provider : List Char → Except (List Char) (List Char))
    (hfiles : files ≠ [])
    (hmd : files.filter isMarkdownFile ≠ []) :
    translateFiles fs cwd files inputPattern outputDir targetLanguage suffix
        preserveStructure provider =
      Except.ok
        ((files.filter isMarkdownFile).map
          (outcomeOf fs cwd inputPattern outputDir targetLanguage suffix
            preserveStructure provider),
         ((files.filter isMarkdownFile).map
          (writesOf fs cwd inputPattern outputDir targetLanguage suffix
            preserveStructure provider)).join) ∧
    ((files.filter isMarkdownFile).map
      (outcomeOf fs cwd inputPattern outputDir targetLanguage suffix
        preserveStructure provider)).length =
      (files.filter isMarkdownFile).length := by
  constructor
  · unfold translateFiles
    rw [if_neg (by simpa using hfiles), if_neg (by simpa using hmd)]
    rw [batchLoop_eq_map]
  · exact List.length_map _ _

/-- C10: the batch markdown filter keeps a matched file exactly when its
extension, lower-cased, is `.md`, `.markdown` or `.mdx`; the comparison is
case-insensitive, so `README.MD` and `guide.Mdx` pass while `a.txt` and
`notes.mdown` do not. -/
theorem markdownFilter_case_insensitive (files : List (List Char)) (f : List Char) :
    (f ∈ files.filter isMarkdownFile ↔
      f ∈ files ∧ ((extnameL f).map jsToLower = ".md".toList ∨
        (extnameL f).map jsToLower = ".markdown".toList ∨
        (extnameL f).map jsToLower = ".mdx".toList)) ∧
    isMarkdownFile "README.MD".toList = true ∧
    isMarkdownFile "guide.Mdx".toList = true ∧
    isMarkdownFile "a.txt".toList = false ∧
    isMarkdownFile "notes.mdown".toList = false := by
  refine ⟨?_, by decide, by decide, by decide, by decide⟩
  rw [List.mem_filter]
  unfold isMarkdownFile
  constructor
  · intro ⟨h1, h2⟩
    refine ⟨h1, ?_⟩
    simpa using h2
  · intro ⟨h1, h2⟩
    refine ⟨h1, ?_⟩
    simpa using h2

/-- Witness for C2 at a concrete input: with budget 1, the single 3-character
line `abc` still becomes its own oversized chunk, equal to the trim of an
original line. -/
theorem splitIntoChunks_size_bound_witness :
    "abc".toList ∈ splitIntoChunks "abc".toList 1 ∧
    ("abc".toList.length ≤ 1 ∨ ('\n' ∉ "abc".toList ∧
      ∃ l ∈ splitOnNl "abc".toList, "abc".toList = trimL l)) :=
  ⟨by decide, splitIntoChunks_size_bound "abc".toList 1 "abc".toList (by decide)⟩

/-- Witness for C5 at a concrete input: a provider failing on the first (and
only) chunk of `# A` aborts the document and the file write. -/
theorem translateDocument_all_or_nothing_witness :
    (translateMarkdown (fun _ => Except.error "boom".toList)
      "# A".toList "Spanish".toList).2 = Except.error "boom".toList ∧
    requestsOf (translateMarkdown (fun _ => Except.error "boom".toList)
      "# A".toList "Spanish".toList).1 =
      (splitIntoChunks "# A".toList DEFAULT_CHUNK_SIZE).take 1 ∧
    (translateFile (fun p => if p = "in.md".toList then some "# A".toList else none)
      "in.md".toList "out.md".toList "Spanish".toList
      (fun _ => Except.error "boom".toList)).writes = [] ∧
    (translateFile (fun p => if p = "in.md".toList then some "# A".toList else none)
      "in.md".toList "out.md".toList "Spanish".toList
      (fun _ => Except.error "boom".toList)).result =
      Except.error "boom".toList :=
  translateDocument_all_or_nothing
    (fun _ => Except.error "boom".toList)
    (fun p => if p = "in.md".toList then some "# A".toList else none)
    "# A".toList "Spanish".toList "in.md".toList "out.md".toList
    "boom".toList 0 (by decide)
    (fun j hj hj0 => absurd hj0 (by omega)) rfl (by decide) (by decide)

/-- Witness for the amended C6, which is exactly the specification scenario:
one chunk, the provider answers `# Hola\nMundo`, and the document result is
`# Hola\nMundo\n` — exactly one trailing newline. -/
theorem translateDocument_join_trailing_witness :
    ((translateMarkdown (fun _ => Except.ok "# Hola\nMundo".toList)
        "# Hello\nWorld\n".toList "Spanish".toList).2 =
      Except.ok (ensureTrailingNl (joinBlank ["# Hola\nMundo".toList])) ∧
     (ensureTrailingNl (joinBlank ["# Hola\nMundo".toList])).getLast? =
       some '\n' ∧
     ((∀ t ∈ [("# Hola\nMundo".toList : List Char)], t ≠ []) →
       exactlyOneTrailingNl (ensureTrailingNl (joinBlank ["# Hola\nMundo".toList])))) ∧
    ensureTrailingNl (joinBlank ["# Hola\nMundo".toList]) =
      "# Hola\nMundo\n".toList :=
  ⟨translateDocument_join_trailing (fun _ => Except.ok "# Hola\nMundo".toList)
    "# Hello\nWorld\n".toList "Spanish".toList ["# Hola\nMundo".toList] rfl,
   by decide⟩

/-- Witness for C7 at a concrete input: a one-chunk document fires the
callback once, with `(1, 1)`, before the single provider request. -/
theorem translateDocument_progress_witness :
    ((translateMarkdown (fun _ => Except.ok "# Hola\nMundo".toList)
        "# Hello\nWorld\n".toList "French".toList).2.isOk = true) ∧
    ((translateMarkdown (fun _ => Except.ok "# Hola\nMundo".toList)
        "# Hello\nWorld\n".toList "French".toList).1 =
      traceFor (splitIntoChunks "# Hello\nWorld\n".toList DEFAULT_CHUNK_SIZE) 0
        (splitIntoChunks "# Hello\nWorld\n".toList DEFAULT_CHUNK_SIZE).length ∧
     progressOf (translateMarkdown (fun _ => Except.ok "# Hola\nMundo".toList)
        "# Hello\nWorld\n".toList "French".toList).1 =
      (List.range (splitIntoChunks "# Hello\nWorld\n".toList
          DEFAULT_CHUNK_SIZE).length).map
        fun j => (j + 1, (splitIntoChunks "# Hello\nWorld\n".toList
          DEFAULT_CHUNK_SIZE).length)) :=
  ⟨rfl, translateDocument_progress (fun _ => Except.ok "# Hola\nMundo".toList)
    "# Hello\nWorld\n".toList "French".toList rfl⟩

/-- Witness for C9 at a concrete input: a file holding only blanks and a
newline is rejected as empty, with no trace and no write. -/
theorem translateFile_rejects_blank_witness :
    translateFile (fun p => if p = "in.md".toList then some "  \n ".toList else none)
      "in.md".toList "o.md".toList "Spanish".toList
      (fun _ => Except.ok "X".toList) =
      ⟨[], [], Except.error "Input file is empty".toList⟩ :=
  translateFile_rejects_blank
    (fun p => if p = "in.md".toList then some "  \n ".toList else none)
    "in.md".toList "o.md".toList "Spanish".toList "  \n ".toList
    (fun _ => Except.ok "X".toList) (by decide) (by decide)

/-- Witness for C4, the three-file scenario of the specification: the second file
is blank and fails with `Input file is empty`, yet the batch returns three
outcomes and the first and third outputs are still written. -/
theorem translateFiles_isolates_failures_witness :
    translateFiles
      (fun p => if p = "a.md".toList then some "A".toList
        else if p = "b.md".toList then some " ".toList
        else if p = "c.md".toList then some "C".toList else none)
      "/w".toList ["a.md".toList, "b.md".toList, "c.md".toList]
      "*.md".toList "out".toList "Spanish".toList [] true
      (fun _ => Except.ok "X".toList) =
      Except.ok
        ([Outcome.ok ⟨"a.md".toList, "out/a.md".toList, "Spanish".toList, 1, 2⟩,
          Outcome.err "b.md".toList "Input file is empty".toList,
          Outcome.ok ⟨"c.md".toList, "out/c.md".toList, "Spanish".toList, 1, 2⟩],
         [("out/a.md".toList, "X\n".toList),
          ("out/c.md".toList, "X\n".toList)]) := by
  have h := translateFiles_isolates_failures
    (fun p => if p = "a.md".toList then some "A".toList
      else if p = "b.md".toList then some " ".toList
      else if p = "c.md".toList then some "C".toList else none)
    "/w".toList ["a.md".toList, "b.md".toList, "c.md".toList]
    "*.md".toList "out".toList "Spanish".toList [] true
    (fun _ => Except.ok "X".toList) (by decide) (by decide)
  rw [h.1]
  rfl
